import Mathlib

/- Shallow embedding of the smoothed-aggregation algebraic-multigrid engine of
cusp (cusp/precond/aggregation/detail/smoothed_aggregation.inl).

Matrices are modelled as dimension-tagged entry functions over ℚ, vectors as
lists of ℚ.  The external collaborators that the engine calls (strength of
connection, aggregation, tentative-prolongator fitting, prolongator smoothing,
per-level smoother, spectral-radius estimate, dense LU) are opaque parameters
bundled in a `Collab` record; the generic sparse/dense primitives (multiply,
transpose, axpby-style BLAS) are modelled from the spec contracts by their
mathematical definitions. -/

abbrev Vec := List ℚ

def get0 (v : Vec) (i : Nat) : ℚ := v.getD i 0

def zeroVec (n : Nat) : Vec := List.replicate n 0

structure Mat where
  rows : Nat
  cols : Nat
  entry : Nat → Nat → ℚ

def dMat : Mat := ⟨0, 0, fun _ _ => 0⟩

/-- Dot product of the first `n` values of two entry streams. -/
def dotF (f g : Nat → ℚ) : Nat → ℚ
  | 0 => 0
  | n + 1 => dotF f g n + f n * g n

/-- Modelled from the spec: the sparse matrix-vector multiply primitive
`cusp::multiply(A, x, y)` (contract: y = A·x). -/
def matVec (A : Mat) (v : Vec) : Vec :=
  (List.range A.rows).map (fun i => dotF (A.entry i) (get0 v) A.cols)

/-- Modelled from the spec: the sparse matrix-matrix multiply primitive
`cusp::multiply(A, B, C)` (contract: C = A·B). -/
def mulM (A B : Mat) : Mat :=
  ⟨A.rows, B.cols, fun i j => dotF (A.entry i) (fun k => B.entry k j) A.cols⟩

/-- Modelled from the spec: the sparse transpose primitive `cusp::transpose`. -/
def transposeM (A : Mat) : Mat := ⟨A.cols, A.rows, fun i j => A.entry j i⟩

/-- Number of stored (nonzero) entries of a matrix, the model of
`num_entries` used by the complexity diagnostics. -/
def Mat.nnz (A : Mat) : Nat :=
  ((List.range A.rows).map
    (fun i => ((List.range A.cols).filter (fun j => decide (A.entry i j ≠ 0))).length)).sum

/-- Modelled from the spec: `cusp::blas::axpby(x, y, z, a, b)` with `z`
aliased to `y` as in all call sites here (contract: z = a·x + b·y). -/
def axpby (a : ℚ) (xv : Vec) (b : ℚ) (yv : Vec) : Vec :=
  (List.range yv.length).map (fun i => a * get0 xv i + b * get0 yv i)

/-- Modelled from the spec: `cusp::blas::axpy(u, x, 1)`, i.e. x += u, written
over x's range (entries of x beyond u's length are kept). -/
def axpy (u xv : Vec) : Vec :=
  (List.range xv.length).map
    (fun i => if i < u.length then get0 xv i + get0 u i else get0 xv i)

/-- Modelled from the spec: the per-level relaxation collaborator, exposing
in-place presmooth/postsmooth over (operator, rhs, solution). -/
structure Smoother where
  pre : Mat → Vec → Vec → Vec
  post : Mat → Vec → Vec → Vec

def dSmoother : Smoother := ⟨fun _ _ x => x, fun _ _ x => x⟩

/-- One entry of the multigrid hierarchy, mirroring
`smoothed_aggregation::level`: `A_` is the setup operator, `A` the solve
operator, `B` the near-null-space vector, `R`/`P`/`aggregates`/`smoother`
are absent (`none`) until `extend_hierarchy` assigns them, and
`residual`/`x`/`b` are the per-level work vectors. -/
structure Level where
  A_ : Mat := dMat
  A : Mat := dMat
  B : Vec := []
  R : Option Mat := none
  P : Option Mat := none
  aggregates : Option (List Nat) := none
  smoother : Option Smoother := none
  residual : Vec := []
  x : Vec := []
  b : Vec := []

def dLevel : Level := {}

/-- Modelled from the spec: the external collaborators consumed by the
hierarchy builder (strength of connection, aggregation, spectral-radius
estimate, tentative-prolongator fit, prolongator smoothing, smoother
construction, coarsest-level dense LU solver). -/
structure Collab where
  strength : Mat → ℚ → Mat
  aggregate : Mat → Nat → Nat
  estimateRho : Mat → ℚ
  fit : List Nat → Vec → Mat × Vec
  smoothP : Mat → Mat → ℚ → ℚ → Mat
  smInit : Mat → ℚ → Smoother
  lu : Mat → Vec → Vec

/-- The body of `smoothed_aggregation::extend_hierarchy` acting on the current
last level `cur`: returns the updated version of `cur` (now non-terminal,
receiving smoother, aggregates, R, P and a residual buffer) together with the
freshly appended coarser level (seeded with RAP, B_coarse and zero x/b work
vectors). -/
def extendStep (col : Collab) (θ : ℚ) (cur : Level) : Level × Level :=
  let C := col.strength cur.A_ θ
  let aggs := (List.range C.rows).map (col.aggregate C)
  let rho := col.estimateRho cur.A_
  let TB := col.fit aggs cur.B
  let P := col.smoothP cur.A_ TB.1 ((4 : ℚ) / 3) rho
  let R := transposeM P
  let AP := mulM cur.A_ P
  let RAP := mulM R AP
  let cur' : Level :=
    { cur with
        smoother := some (col.smInit cur.A_ rho)
        aggregates := some aggs
        R := some R
        P := some P
        residual := zeroVec cur.A_.rows }
  let newL : Level :=
    { A_ := RAP, B := TB.2, x := zeroVec RAP.rows, b := zeroVec RAP.rows }
  (cur', newL)

/-- `extend_hierarchy` on the whole level list: rewrite the last level and
append the new coarser one. -/
def extendL (col : Collab) (θ : ℚ) : List Level → List Level
  | [] => []
  | [cur] => [(extendStep col θ cur).1, (extendStep col θ cur).2]
  | l :: l2 :: rest => l :: extendL col θ (l2 :: rest)

def lastLevel : List Level → Level
  | [] => dLevel
  | [a] => a
  | _ :: b :: rest => lastLevel (b :: rest)

/-- The build loop of `init`: `while (levels.back().A_.num_rows > 100)
extend_hierarchy();`.  `fuel` bounds the number of passes; `none` means the
loop has not finished within `fuel` passes (the source has no other way out
of the loop). -/
def buildLoop (col : Collab) (θ : ℚ) : Nat → List Level → Option (List Level)
  | 0, ls => if 100 < (lastLevel ls).A_.rows then none else some ls
  | fuel + 1, ls =>
    if 100 < (lastLevel ls).A_.rows then buildLoop col θ fuel (extendL col θ ls)
    else some ls

/-- The post-loop fixup of `init`: `levels[0].A = A;` and, for every coarser
level, `setup_level_matrix(levels[lvl].A, levels[lvl].A_)`. -/
def finalizeL (A : Mat) : List Level → List Level
  | [] => []
  | l0 :: rest => { l0 with A := A } :: rest.map (fun lv => { lv with A := lv.A_ })

structure Hierarchy where
  levels : List Level
  lu : Vec → Vec

def dHier : Hierarchy := ⟨[], fun _ => []⟩

/-- `smoothed_aggregation::init(A, B)`: push the finest level, run the build
loop, construct the coarsest-level LU solver from (a dense copy of) the last
setup matrix, and set the per-level solve matrices. -/
def initAMG (col : Collab) (θ : ℚ) (A : Mat) (B : Vec) (fuel : Nat) :
    Option Hierarchy :=
  match buildLoop col θ fuel [{ A_ := A, B := B }] with
  | none => none
  | some ls => some { levels := finalizeL A ls, lu := col.lu (lastLevel ls).A_ }

/-- The mutable work vectors of one level at solve time. -/
structure Work where
  x : Vec
  b : Vec
  residual : Vec

def dWork : Work := ⟨[], [], []⟩

def initWork (h : Hierarchy) : List Work :=
  h.levels.map (fun lv => ⟨lv.x, lv.b, lv.residual⟩)

/-- Overwrite `levels[i].residual`. -/
def putResidual (st : List Work) (i : Nat) (r : Vec) : List Work :=
  st.set i { st.getD i dWork with residual := r }

/-- Overwrite `levels[i].b`. -/
def putB (st : List Work) (i : Nat) (v : Vec) : List Work :=
  st.set i { st.getD i dWork with b := v }

/-- Overwrite `levels[i].x`. -/
def putX (st : List Work) (i : Nat) (v : Vec) : List Work :=
  st.set i { st.getD i dWork with x := v }

/-- Read `levels[i].x`. -/
def getX (st : List Work) (i : Nat) : Vec := (st.getD i dWork).x

/-- Observable steps of the engine, with the values they involve. -/
inductive Ev where
  | coarse (i : Nat) (b xo : Vec)
  | pre (i : Nat) (b x0 x1 : Vec)
  | resid (i : Nat) (r : Vec)
  | restrict (i : Nat) (bc : Vec)
  | correct (i : Nat) (xc x2 : Vec)
  | post (i : Nat) (b x2 x3 : Vec)
  | advance
deriving DecidableEq

/-- `smoothed_aggregation::_solve(b, x, i)`: the recursive V-cycle.  Returns
the new value of the solution argument `x`, the updated per-level work
vectors, and the trace of performed steps.  `gas` bounds the recursion depth
(the top-level call passes the number of levels, which always suffices). -/
def solveRec (H : Hierarchy) : Nat → List Work → Vec → Vec → Nat →
    Vec × List Work × List Ev
  | 0, st, _, x, _ => (x, st, [])
  | gas + 1, st, b, x, i =>
    if i + 1 = H.levels.length then
      (H.lu b, st, [Ev.coarse i b (H.lu b)])
    else
      let lv := H.levels.getD i dLevel
      let sm := lv.smoother.getD dSmoother
      let x1 := sm.pre lv.A b x
      let r := axpby 1 b (-1) (matVec lv.A x1)
      let st1 := putResidual st i r
      let bc := matVec (lv.R.getD dMat) r
      let st2 := putB st1 (i + 1) bc
      let rc := solveRec H gas st2 bc (getX st1 (i + 1)) (i + 1)
      let st4 := putX rc.2.1 (i + 1) rc.1
      let c := matVec (lv.P.getD dMat) rc.1
      let st5 := putResidual st4 i c
      let x2 := axpy c x1
      let x3 := sm.post lv.A b x2
      (x3, st5,
        Ev.pre i b x x1 :: Ev.resid i r :: Ev.restrict i bc ::
          (rc.2.2 ++ [Ev.correct i rc.1 x2, Ev.post i b x2 x3]))

/-- `smoothed_aggregation::operator()(b, x)`: perform one V-cycle. -/
def applyOp (H : Hierarchy) (st : List Work) (b x : Vec) :
    Vec × List Work × List Ev :=
  solveRec H H.levels.length st b x 0

/-- Modelled from the spec: the convergence-monitor collaborator.  It owns an
iteration counter, an iteration bound, and an arbitrary residual-based
stopping test; `finished` consults the bound and the test, and `inc` is the
`++monitor` operation. -/
structure Monitor where
  iter : Nat
  limit : Nat
  isDone : Nat → Vec → Bool

def Monitor.finished (m : Monitor) (r : Vec) : Bool :=
  decide (m.limit ≤ m.iter) || m.isDone m.iter r

def Monitor.inc (m : Monitor) : Monitor := { m with iter := m.iter + 1 }

/-- The iteration loop of `smoothed_aggregation::solve(b, x, monitor)`. -/
def solveLoop (H : Hierarchy) (b : Vec) (st : List Work) (x u r : Vec)
    (m : Monitor) : Vec × List Work × Monitor × List Ev :=
  if m.finished r then (x, st, m, [])
  else
    let s := solveRec H H.levels.length st r u 0
    let x' := axpy s.1 x
    let r' := axpby 1 b (-1) (matVec (H.levels.getD 0 dLevel).A x')
    let rest := solveLoop H b s.2.1 x' s.1 r' m.inc
    (rest.1, rest.2.1, rest.2.2.1, s.2.2 ++ Ev.advance :: rest.2.2.2)
termination_by m.limit - m.iter
decreasing_by
  simp only [Monitor.finished, Monitor.inc, Bool.or_eq_true, decide_eq_true_eq,
    not_or] at *
  omega

/-- `smoothed_aggregation::solve(b, x, monitor)`: compute the initial
residual r = b − A₀·x with a zero `update` buffer of length `n =
levels[0].A.num_rows`, then iterate. -/
def solveMG (H : Hierarchy) (st : List Work) (b x : Vec) (m : Monitor) :
    Vec × List Work × Monitor × List Ev :=
  let A0 := (H.levels.getD 0 dLevel).A
  let r := axpby 1 b (-1) (matVec A0 x)
  solveLoop H b st x (zeroVec A0.rows) r m

/-- `operator_complexity()`: total stored entries over all levels divided by
the finest level's stored entries. -/
def operatorComplexity (h : Hierarchy) : ℚ :=
  (((h.levels.map (fun lv => lv.A.nnz)).sum : Nat) : ℚ) /
    (((h.levels.getD 0 dLevel).A.nnz : ℚ))

/-- `grid_complexity()`: total row count over all levels divided by the
finest level's row count. -/
def gridComplexity (h : Hierarchy) : ℚ :=
  (((h.levels.map (fun lv => lv.A.rows)).sum : Nat) : ℚ) /
    (((h.levels.getD 0 dLevel).A.rows : ℚ))

/-- Spec-side per-level state: only the solution and right-hand-side vectors
the spec's V-cycle description mentions (no residual scratch buffer). -/
structure SpecWork where
  x : Vec
  b : Vec

def dSp : SpecWork := ⟨[], []⟩

def projW (w : Work) : SpecWork := ⟨w.x, w.b⟩

/-- Overwrite the right-hand side stored for level `i` (spec side). -/
def putBS (st : List SpecWork) (i : Nat) (v : Vec) : List SpecWork :=
  st.set i ⟨(st.getD i dSp).x, v⟩

/-- Overwrite the solution stored for level `i` (spec side). -/
def putXS (st : List SpecWork) (i : Nat) (v : Vec) : List SpecWork :=
  st.set i ⟨v, (st.getD i dSp).b⟩

/-- Read the solution stored for level `i` (spec side). -/
def getXS (st : List SpecWork) (i : Nat) : Vec := (st.getD i dSp).x

/-- Modelled from the spec: the V-cycle exactly as §4.3 / claim C1 state it.
Terminal case: solve via the coarsest-level direct solver.  Recursive case,
in this strict order and nothing else: pre-smooth x, compute residual
r = b − A·x, restrict b' = R·r, recurse at the next level, correct
x += P·x_coarse, post-smooth x.  All intermediate values are fresh locals. -/
def vcycleSpec (H : Hierarchy) : Nat → List SpecWork → Vec → Vec → Nat →
    Vec × List SpecWork × List Ev
  | 0, st, _, x, _ => (x, st, [])
  | gas + 1, st, b, x, i =>
    if i + 1 = H.levels.length then
      (H.lu b, st, [Ev.coarse i b (H.lu b)])
    else
      let lv := H.levels.getD i dLevel
      let sm := lv.smoother.getD dSmoother
      let x1 := sm.pre lv.A b x
      let r := axpby 1 b (-1) (matVec lv.A x1)
      let bc := matVec (lv.R.getD dMat) r
      let st1 := putBS st (i + 1) bc
      let rc := vcycleSpec H gas st1 bc (getXS st (i + 1)) (i + 1)
      let st2 := putXS rc.2.1 (i + 1) rc.1
      let x2 := axpy (matVec (lv.P.getD dMat) rc.1) x1
      let x3 := sm.post lv.A b x2
      (x3, st2,
        Ev.pre i b x x1 :: Ev.resid i r :: Ev.restrict i bc ::
          (rc.2.2 ++ [Ev.correct i rc.1 x2, Ev.post i b x2 x3]))

/-- Modelled from the spec: the outer iteration exactly as §4.4 / claim C2
state it: while the monitor is not finished on the current residual, run one
V-cycle on r to obtain an update, apply x += update, recompute r = b − A₀·x,
and advance the monitor's iteration counter. -/
def solveLoopSpec (H : Hierarchy) (b : Vec) (st : List SpecWork) (x u r : Vec)
    (m : Monitor) : Vec × List SpecWork × Monitor × List Ev :=
  if m.finished r then (x, st, m, [])
  else
    let s := vcycleSpec H H.levels.length st r u 0
    let x' := axpy s.1 x
    let r' := axpby 1 b (-1) (matVec (H.levels.getD 0 dLevel).A x')
    let rest := solveLoopSpec H b s.2.1 x' s.1 r' m.inc
    (rest.1, rest.2.1, rest.2.2.1, s.2.2 ++ Ev.advance :: rest.2.2.2)
termination_by m.limit - m.iter
decreasing_by
  simp only [Monitor.finished, Monitor.inc, Bool.or_eq_true, decide_eq_true_eq,
    not_or] at *
  omega

/-- Modelled from the spec: claim C2's outer driver, with the initial
residual computed before the loop. -/
def solveMGSpec (H : Hierarchy) (st : List SpecWork) (b x : Vec) (m : Monitor) :
    Vec × List SpecWork × Monitor × List Ev :=
  let A0 := (H.levels.getD 0 dLevel).A
  let r := axpby 1 b (-1) (matVec A0 x)
  solveLoopSpec H b st x (zeroVec A0.rows) r m

/-- The solution value with which pre-smoothing starts at level `j`: the `x0`
payload of the first pre-smooth event at level `j` in a trace. -/
def firstPreX (tr : List Ev) (j : Nat) : Option Vec :=
  tr.findSome? (fun e =>
    match e with
    | Ev.pre i _ x0 _ => if i = j then some x0 else none
    | _ => none)

/-- Count of monitor-advance events in a trace. -/
def advCount (tr : List Ev) : Nat :=
  tr.countP (fun e => decide (e = Ev.advance))

/-- Strictly-decreasing row counts along a level list. -/
def StrictDec : List Level → Prop
  | [] => True
  | [_] => True
  | a :: b :: rest => b.A_.rows < a.A_.rows ∧ StrictDec (b :: rest)

/-- Structural invariant of a level list during the build loop: every
non-terminal level has row count above the coarsening threshold, carries the
collaborator-produced smoother and aggregates, stores `R = Pᵀ`, and the next
level's setup operator is the Galerkin product `R·A·P`; the next level's work
vectors are zero-initialized; the last level carries no
R/P/aggregates/smoother. -/
def ChainInv : List Level → Prop
  | [] => True
  | [last] =>
    last.R = none ∧ last.P = none ∧ last.aggregates = none ∧
      last.smoother = none
  | a :: b :: rest =>
    (∃ P, a.P = some P ∧ a.R = some (transposeM P) ∧
      b.A_ = mulM (transposeM P) (mulM a.A_ P) ∧
      a.smoother.isSome ∧ a.aggregates.isSome ∧ 100 < a.A_.rows ∧
      b.x = zeroVec b.A_.rows ∧ b.b = zeroVec b.A_.rows) ∧
    ChainInv (b :: rest)

/- Concrete instances used to evaluate the development on explicit inputs. -/

/-- A constant near-null-space vector of ones, length 101. -/
def B101 : Vec := List.replicate 101 1

/-- A 101-row input operator with a single stored entry. -/
def AW : Mat := ⟨101, 1, fun i j => if i = 0 ∧ j = 0 then 1 else 0⟩

/-- Collaborators that coarsen any level to 2 rows in one pass. -/
def colW : Collab :=
  { strength := fun A _ => A
    aggregate := fun _ i => i % 2
    estimateRho := fun _ => 1
    fit := fun aggs _ =>
      (⟨aggs.length, 2, fun i j => if i % 2 = j then 1 else 0⟩, [1, 1])
    smoothP := fun _ T _ _ => T
    smInit := fun _ _ => dSmoother
    lu := fun _ b => b }

/-- A two-level hierarchy built from `AW` (101 rows → 2 rows). -/
def hW : Hierarchy := (initAMG colW 0 AW B101 5).getD dHier

/-- Collaborators whose first coarsening pass makes no progress (101 rows →
101 rows) and whose second pass coarsens to 2 rows; the pass is selected by
the head of the near-null-space vector they propagate. -/
def colC3 : Collab :=
  { strength := fun A _ => A
    aggregate := fun _ i => i
    estimateRho := fun _ => 1
    fit := fun aggs Bv =>
      if Bv.headD 0 = 1 then
        (⟨aggs.length, 101, fun _ _ => 0⟩, List.replicate 101 2)
      else (⟨aggs.length, 2, fun _ _ => 0⟩, [0, 0])
    smoothP := fun _ T _ _ => T
    smInit := fun _ _ => dSmoother
    lu := fun _ b => b }

/-- A three-level hierarchy whose first coarsening pass made no progress:
row counts 101, 101, 2. -/
def hC3 : Hierarchy := (initAMG colC3 0 AW B101 5).getD dHier

/-- Collaborators whose every coarsening pass keeps the row count unchanged
(each row becomes its own aggregate). -/
def colStall : Collab :=
  { strength := fun A _ => A
    aggregate := fun _ i => i
    estimateRho := fun _ => 1
    fit := fun aggs _ => (⟨aggs.length, aggs.length, fun _ _ => 0⟩, [])
    smoothP := fun _ T _ _ => T
    smInit := fun _ _ => dSmoother
    lu := fun _ b => b }

/-- A 101-row all-zero operator (101 × 1 in the dimension tags, so that
matrix-vector products against it stay cheap to evaluate). -/
def A0C7 : Mat := ⟨101, 1, fun _ _ => 0⟩

/-- Collaborators producing a three-level hierarchy (101, 101, 2 rows) with
identity smoothers and a coarse solver returning the constant vector [1, 1];
transfer operators have a single nonzero at (0, 0). -/
def colC7 : Collab :=
  { strength := fun A _ => A
    aggregate := fun _ i => i % 2
    estimateRho := fun _ => 1
    fit := fun aggs Bv =>
      if Bv.headD 0 = 1 then
        (⟨aggs.length, 101, fun i j => if i = 0 ∧ j = 0 then 1 else 0⟩,
          List.replicate 101 2)
      else
        (⟨aggs.length, 2, fun i j => if i = 0 ∧ j = 0 then 1 else 0⟩, [1, 1])
    smoothP := fun _ T _ _ => T
    smInit := fun _ _ => dSmoother
    lu := fun _ _ => [1, 1] }

/-- A three-level hierarchy on which consecutive V-cycles are evaluated. -/
def hC7 : Hierarchy := (initAMG colC7 0 A0C7 B101 9).getD dHier

/-- A 1 × 1 operator with no stored entries (a zero matrix). -/
def Az : Mat := ⟨1, 1, fun _ _ => 0⟩

/-- The (single-level) hierarchy built from the zero 1 × 1 operator. -/
def hz : Hierarchy := (initAMG colW 0 Az [1] 1).getD dHier

/-- A 1 × 1 operator with one stored entry. -/
def A1pos : Mat := ⟨1, 1, fun _ _ => 1⟩

/-- The (single-level) hierarchy built from `A1pos`. -/
def h1 : Hierarchy := (initAMG colW 0 A1pos [1] 1).getD dHier

/-- A monitor that allows exactly one iteration. -/
def m1 : Monitor := ⟨0, 1, fun _ _ => false⟩

/- Helper lemmas about lists. -/

theorem list_getD_map_projW (l : List Work) (i : Nat) :
    (l.map projW).getD i dSp = projW (l.getD i dWork) := by
  induction l generalizing i with
  | nil => cases i <;> rfl
  | cons a t ih =>
    cases i with
    | zero => rfl
    | succ n => simpa using ih n

theorem list_map_set {α β : Type} (f : α → β) (l : List α) (i : Nat) (a : α) :
    (l.set i a).map f = (l.map f).set i (f a) := by
  induction l generalizing i with
  | nil => rfl
  | cons x t ih =>
    cases i with
    | zero => rfl
    | succ n => simp [ih]

theorem list_set_getD_self {α : Type} (l : List α) (i : Nat) (d : α) :
    l.set i (l.getD i d) = l := by
  induction l generalizing i with
  | nil => rfl
  | cons x t ih =>
    cases i with
    | zero => rfl
    | succ n => simpa using ih n

theorem list_getD_set_ne {α : Type} (l : List α) (i j : Nat) (a d : α) (h : i ≠ j) :
    (l.set i a).getD j d = l.getD j d := by
  induction l generalizing i j with
  | nil => rfl
  | cons x t ih =>
    cases i with
    | zero =>
      cases j with
      | zero => exact absurd rfl h
      | succ m => rfl
    | succ n =>
      cases j with
      | zero => rfl
      | succ m => simpa using ih n m (by omega)

theorem findSome?_append_some {α β : Type} (f : α → Option β) (l1 l2 : List α)
    (v : β) (h : l1.findSome? f = some v) :
    (l1 ++ l2).findSome? f = some v := by
  induction l1 with
  | nil => simp [List.findSome?] at h
  | cons a t ih =>
    rw [List.cons_append, List.findSome?_cons] at *
    cases hf : f a with
    | some w => rw [hf] at h; exact h
    | none => rw [hf] at h; exact ih h

/- Matrix algebra lemmas. -/

theorem dotF_eq_sum (f g : Nat → ℚ) (n : Nat) :
    dotF f g n = ∑ k in Finset.range n, f k * g k := by
  induction n with
  | zero => rfl
  | succ m ih => rw [dotF, ih, Finset.sum_range_succ]

theorem Mat.ext' {A B : Mat} (hr : A.rows = B.rows) (hc : A.cols = B.cols)
    (he : A.entry = B.entry) : A = B := by
  cases A; cases B
  cases hr; cases hc; cases he
  rfl

theorem mulM_assoc (X Y Z : Mat) : mulM (mulM X Y) Z = mulM X (mulM Y Z) := by
  refine Mat.ext' rfl rfl ?_
  funext i j
  show dotF (fun k => dotF (X.entry i) (fun l => Y.entry l k) X.cols)
      (fun k => Z.entry k j) Y.cols
    = dotF (X.entry i) (fun l => dotF (Y.entry l) (fun k => Z.entry k j) Y.cols)
      X.cols
  simp only [dotF_eq_sum, Finset.sum_mul, Finset.mul_sum]
  rw [Finset.sum_comm]
  simp [mul_assoc]

/- State-projection lemmas. -/

theorem map_projW_putResidual (l : List Work) (i : Nat) (r : Vec) :
    (putResidual l i r).map projW = l.map projW := by
  rw [putResidual, list_map_set]
  have h : projW { l.getD i dWork with residual := r } = projW (l.getD i dWork) := rfl
  rw [h, ← list_getD_map_projW, list_set_getD_self]

theorem map_projW_putB (l : List Work) (i : Nat) (v : Vec) :
    (putB l i v).map projW = putBS (l.map projW) i v := by
  rw [putB, putBS, list_map_set, list_getD_map_projW]
  rfl

theorem map_projW_putX (l : List Work) (i : Nat) (v : Vec) :
    (putX l i v).map projW = putXS (l.map projW) i v := by
  rw [putX, putXS, list_map_set, list_getD_map_projW]
  rfl

theorem getX_map (l : List Work) (i : Nat) :
    getXS (l.map projW) i = getX l i := by
  rw [getXS, getX, list_getD_map_projW]
  rfl

theorem getX_set_preserve (l : List Work) (i j : Nat) (w' : Work)
    (hx : w'.x = (l.getD j dWork).x) : getX (l.set j w') i = getX l i := by
  induction l generalizing i j with
  | nil => rfl
  | cons w t ih =>
    cases j with
    | zero =>
      cases i with
      | zero => exact hx
      | succ m => rfl
    | succ n =>
      cases i with
      | zero => rfl
      | succ m => exact ih m n hx

theorem getX_putResidual (l : List Work) (i j : Nat) (r : Vec) :
    getX (putResidual l j r) i = getX l i :=
  getX_set_preserve l i j _ rfl

theorem getX_putB (l : List Work) (i j : Nat) (v : Vec) :
    getX (putB l j v) i = getX l i :=
  getX_set_preserve l i j _ rfl

/- The V-cycle implementation refines the spec's six-step description. -/

theorem solveRec_toSpec (H : Hierarchy) :
    ∀ (gas : Nat) (st : List Work) (b x : Vec) (i : Nat),
    (solveRec H gas st b x i).1 = (vcycleSpec H gas (st.map projW) b x i).1 ∧
    (solveRec H gas st b x i).2.1.map projW
      = (vcycleSpec H gas (st.map projW) b x i).2.1 ∧
    (solveRec H gas st b x i).2.2 = (vcycleSpec H gas (st.map projW) b x i).2.2 := by
  intro gas
  induction gas with
  | zero => exact fun st b x i => ⟨rfl, rfl, rfl⟩
  | succ g ih =>
    intro st b x i
    by_cases hterm : i + 1 = H.levels.length
    · simp [solveRec, vcycleSpec, hterm]
    · simp only [solveRec, vcycleSpec, if_neg hterm]
      generalize H.levels.getD i dLevel = lv
      generalize (lv.smoother.getD dSmoother).pre lv.A b x = x1
      generalize axpby 1 b (-1) (matVec lv.A x1) = r
      generalize matVec (lv.R.getD dMat) r = bc
      have hst : (putB (putResidual st i r) (i + 1) bc).map projW
          = putBS (st.map projW) (i + 1) bc := by
        rw [map_projW_putB, map_projW_putResidual]
      have hgx : getX (putResidual st i r) (i + 1) = getXS (st.map projW) (i + 1) := by
        rw [getX_putResidual, getX_map]
      obtain ⟨ih1, ih2, ih3⟩ :=
        ih (putB (putResidual st i r) (i + 1) bc) bc
          (getX (putResidual st i r) (i + 1)) (i + 1)
      rw [hst] at ih1 ih2 ih3
      rw [← hgx]
      refine ⟨by rw [ih1], ?_, ?_⟩
      · rw [map_projW_putResidual, map_projW_putX, ih1, ih2]
      · rw [ih1, ih3]

/- Trace bookkeeping lemmas. -/

theorem advCount_append (l1 l2 : List Ev) :
    advCount (l1 ++ l2) = advCount l1 + advCount l2 := by
  rw [advCount, advCount, advCount, List.countP_append]

theorem advCount_solveRec (H : Hierarchy) :
    ∀ (gas : Nat) (st : List Work) (b x : Vec) (i : Nat),
    advCount ((solveRec H gas st b x i).2.2) = 0 := by
  intro gas
  induction gas with
  | zero => intro st b x i; rfl
  | succ g ih =>
    intro st b x i
    by_cases hterm : i + 1 = H.levels.length
    · simp [solveRec, hterm, advCount]
    · simp only [solveRec, if_neg hterm]
      simp [advCount, List.countP_cons, List.countP_append] at ih ⊢
      exact ih _ _ _ _

/- The outer iteration implementation refines the spec's loop description,
and advances the monitor exactly once per pass. -/

theorem solveLoop_toSpec (H : Hierarchy) (b : Vec) :
    ∀ (k : Nat) (m : Monitor), m.limit - m.iter ≤ k →
    ∀ (st : List Work) (x u r : Vec),
    (solveLoop H b st x u r m).1 = (solveLoopSpec H b (st.map projW) x u r m).1 ∧
    (solveLoop H b st x u r m).2.1.map projW
      = (solveLoopSpec H b (st.map projW) x u r m).2.1 ∧
    (solveLoop H b st x u r m).2.2.1
      = (solveLoopSpec H b (st.map projW) x u r m).2.2.1 ∧
    (solveLoop H b st x u r m).2.2.2
      = (solveLoopSpec H b (st.map projW) x u r m).2.2.2 ∧
    (solveLoop H b st x u r m).2.2.1.iter
      = m.iter + advCount ((solveLoop H b st x u r m).2.2.2) := by
  intro k
  induction k with
  | zero =>
    intro m hm st x u r
    have hfin : m.finished r = true := by
      rw [Monitor.finished]
      have hle : m.limit ≤ m.iter := by omega
      simp [hle]
    rw [solveLoop.eq_def, solveLoopSpec.eq_def]
    simp [if_pos hfin, advCount]
  | succ k ih =>
    intro m hm st x u r
    by_cases hfin : m.finished r = true
    · rw [solveLoop.eq_def, solveLoopSpec.eq_def]
      simp [if_pos hfin, advCount]
    · have hit : m.iter < m.limit := by
        by_contra hc
        apply hfin
        rw [Monitor.finished]
        have hle : m.limit ≤ m.iter := by omega
        simp [hle]
      rw [solveLoop.eq_def, solveLoopSpec.eq_def]
      simp only [if_neg hfin]
      obtain ⟨v1, v2, v3⟩ := solveRec_toSpec H H.levels.length st r u 0
      obtain ⟨l1, l2, l3, l4, l5⟩ :=
        ih m.inc (by simp [Monitor.inc]; omega)
          (solveRec H H.levels.length st r u 0).2.1
          (axpy (solveRec H H.levels.length st r u 0).1 x)
          (solveRec H H.levels.length st r u 0).1
          (axpby 1 b (-1)
            (matVec (H.levels.getD 0 dLevel).A
              (axpy (solveRec H H.levels.length st r u 0).1 x)))
      rw [← v1, ← v2, ← v3]
      have hadv : advCount ((solveRec H H.levels.length st r u 0).2.2 ++
          Ev.advance ::
            (solveLoop H b (solveRec H H.levels.length st r u 0).2.1
              (axpy (solveRec H H.levels.length st r u 0).1 x)
              (solveRec H H.levels.length st r u 0).1
              (axpby 1 b (-1)
                (matVec (H.levels.getD 0 dLevel).A
                  (axpy (solveRec H H.levels.length st r u 0).1 x))) m.inc).2.2.2)
          = advCount ((solveLoop H b (solveRec H H.levels.length st r u 0).2.1
              (axpy (solveRec H H.levels.length st r u 0).1 x)
              (solveRec H H.levels.length st r u 0).1
              (axpby 1 b (-1)
                (matVec (H.levels.getD 0 dLevel).A
                  (axpy (solveRec H H.levels.length st r u 0).1 x))) m.inc).2.2.2)
            + 1 := by
        rw [advCount_append, advCount_solveRec]
        simp [advCount, List.countP_cons]
      refine ⟨l1, l2, l3, by rw [l4], ?_⟩
      rw [hadv, l5]
      have hinc : m.inc.iter = m.iter + 1 := rfl
      rw [hinc]
      omega

/- Structural lemmas about the build loop. -/

theorem extendL_cons_cons (col : Collab) (θ : ℚ) (a b : Level) (rest : List Level) :
    extendL col θ (a :: b :: rest) = a :: extendL col θ (b :: rest) := rfl

theorem lastLevel_cons_cons (a b : Level) (rest : List Level) :
    lastLevel (a :: b :: rest) = lastLevel (b :: rest) := rfl

theorem lastLevel_cons_of_ne (a : Level) (L : List Level) (h : L ≠ []) :
    lastLevel (a :: L) = lastLevel L := by
  cases L with
  | nil => exact absurd rfl h
  | cons b r => rfl

theorem extendL_ne_nil (col : Collab) (θ : ℚ) (ls : List Level) (h : ls ≠ []) :
    extendL col θ ls ≠ [] := by
  cases ls with
  | nil => exact absurd rfl h
  | cons a t =>
    cases t with
    | nil => simp [extendL]
    | cons b r => simp [extendL]

theorem lastLevel_extendL (col : Collab) (θ : ℚ) :
    ∀ ls : List Level, ls ≠ [] →
    lastLevel (extendL col θ ls) = (extendStep col θ (lastLevel ls)).2 := by
  intro ls
  induction ls with
  | nil => intro h; exact absurd rfl h
  | cons a t ih =>
    intro _
    cases t with
    | nil => rfl
    | cons b r =>
      rw [extendL_cons_cons,
        lastLevel_cons_of_ne a _ (extendL_ne_nil col θ _ (by simp)),
        lastLevel_cons_cons]
      exact ih (by simp)

theorem head_extendL_fields (col : Collab) (θ : ℚ) (l : Level) (rest : List Level) :
    ((extendL col θ (l :: rest)).headD dLevel).A_ = l.A_ ∧
    ((extendL col θ (l :: rest)).headD dLevel).x = l.x ∧
    ((extendL col θ (l :: rest)).headD dLevel).b = l.b := by
  cases rest with
  | nil => exact ⟨rfl, rfl, rfl⟩
  | cons b r => exact ⟨rfl, rfl, rfl⟩

theorem chainInv_extendL (col : Collab) (θ : ℚ) :
    ∀ ls : List Level, 100 < (lastLevel ls).A_.rows → ChainInv ls →
    ChainInv (extendL col θ ls) := by
  intro ls
  induction ls with
  | nil => intro _ _; trivial
  | cons a t ih =>
    cases t with
    | nil =>
      intro hrow _
      exact ⟨⟨_, rfl, rfl, rfl, rfl, rfl, hrow, rfl, rfl⟩, rfl, rfl, rfl, rfl⟩
    | cons b r =>
      intro hrow hinv
      obtain ⟨hpair, hrest⟩ := hinv
      have hrow2 : 100 < (lastLevel (b :: r)).A_.rows := hrow
      cases hE : extendL col θ (b :: r) with
      | nil => exact absurd hE (extendL_ne_nil col θ _ (by simp))
      | cons c cs =>
        rw [extendL_cons_cons, hE]
        have hc : c.A_ = b.A_ ∧ c.x = b.x ∧ c.b = b.b := by
          have hf := head_extendL_fields col θ b r
          rw [hE] at hf
          exact hf
        obtain ⟨P, hP, hR, hA, hsm, hag, hrw, hx, hb⟩ := hpair
        refine ⟨⟨P, hP, hR, ?_, hsm, hag, hrw, ?_, ?_⟩, ?_⟩
        · rw [hc.1, hA]
        · rw [hc.2.1, hc.1, hx]
        · rw [hc.2.2, hc.1, hb]
        · have := ih hrow2 hrest
          rw [hE] at this
          exact this

theorem chainInv_getD :
    ∀ ls : List Level, ChainInv ls → ∀ i, i + 1 < ls.length →
    ∃ P, (ls.getD i dLevel).P = some P ∧
      (ls.getD i dLevel).R = some (transposeM P) ∧
      (ls.getD (i + 1) dLevel).A_
        = mulM (transposeM P) (mulM (ls.getD i dLevel).A_ P) ∧
      (ls.getD i dLevel).smoother.isSome ∧
      (ls.getD i dLevel).aggregates.isSome ∧
      100 < (ls.getD i dLevel).A_.rows ∧
      (ls.getD (i + 1) dLevel).x = zeroVec ((ls.getD (i + 1) dLevel).A_).rows ∧
      (ls.getD (i + 1) dLevel).b = zeroVec ((ls.getD (i + 1) dLevel).A_).rows := by
  intro ls
  induction ls with
  | nil => intro _ i hi; simp at hi
  | cons a t ih =>
    intro hinv i hi
    cases t with
    | nil => simp at hi
    | cons b r =>
      obtain ⟨hpair, hrest⟩ := hinv
      cases i with
      | zero => simpa using hpair
      | succ n =>
        simpa using ih hrest n (by simp at hi ⊢; omega)

theorem chainInv_last :
    ∀ ls : List Level, ChainInv ls → ls ≠ [] →
    (lastLevel ls).R = none ∧ (lastLevel ls).P = none ∧
    (lastLevel ls).aggregates = none ∧ (lastLevel ls).smoother = none := by
  intro ls
  induction ls with
  | nil => intro _ h; exact absurd rfl h
  | cons a t ih =>
    intro hinv _
    cases t with
    | nil => exact hinv
    | cons b r => exact ih hinv.2 (by simp)

theorem buildLoop_props (col : Collab) (θ : ℚ) :
    ∀ (fuel : Nat) (ls out : List Level),
    buildLoop col θ fuel ls = some out → ls ≠ [] → ChainInv ls →
    ChainInv out ∧ out ≠ [] ∧ ¬(100 < (lastLevel out).A_.rows) ∧
    (out.headD dLevel).A_ = (ls.headD dLevel).A_ := by
  intro fuel
  induction fuel with
  | zero =>
    intro ls out hb hne hinv
    rw [buildLoop] at hb
    by_cases hr : 100 < (lastLevel ls).A_.rows
    · rw [if_pos hr] at hb; cases hb
    · rw [if_neg hr] at hb; cases hb; exact ⟨hinv, hne, hr, rfl⟩
  | succ f ih =>
    intro ls out hb hne hinv
    rw [buildLoop] at hb
    by_cases hr : 100 < (lastLevel ls).A_.rows
    · rw [if_pos hr] at hb
      have h2 := ih _ _ hb (extendL_ne_nil col θ _ hne) (chainInv_extendL col θ _ hr hinv)
      refine ⟨h2.1, h2.2.1, h2.2.2.1, ?_⟩
      rw [h2.2.2.2]
      cases ls with
      | nil => exact absurd rfl hne
      | cons l t => exact (head_extendL_fields col θ l t).1
    · rw [if_neg hr] at hb; cases hb; exact ⟨hinv, hne, hr, rfl⟩

theorem strictDec_extendL (col : Collab) (θ : ℚ)
    (hprog : ∀ t : List Level, 100 < (lastLevel t).A_.rows →
      (lastLevel (extendL col θ t)).A_.rows < (lastLevel t).A_.rows) :
    ∀ ls : List Level, 100 < (lastLevel ls).A_.rows → StrictDec ls →
    StrictDec (extendL col θ ls) := by
  intro ls
  induction ls with
  | nil => intro _ _; trivial
  | cons a t ih =>
    cases t with
    | nil =>
      intro hrow _
      exact ⟨hprog [a] hrow, trivial⟩
    | cons b r =>
      intro hrow hsd
      obtain ⟨h1, h2⟩ := hsd
      cases hE : extendL col θ (b :: r) with
      | nil => exact absurd hE (extendL_ne_nil col θ _ (by simp))
      | cons c cs =>
        rw [extendL_cons_cons, hE]
        have hc : c.A_ = b.A_ := by
          have hf := (head_extendL_fields col θ b r).1
          rw [hE] at hf
          exact hf
        refine ⟨by rw [hc]; exact h1, ?_⟩
        have := ih hrow h2
        rw [hE] at this
        exact this

theorem buildLoop_strictDec (col : Collab) (θ : ℚ)
    (hprog : ∀ t : List Level, 100 < (lastLevel t).A_.rows →
      (lastLevel (extendL col θ t)).A_.rows < (lastLevel t).A_.rows) :
    ∀ (fuel : Nat) (ls out : List Level),
    buildLoop col θ fuel ls = some out → StrictDec ls → StrictDec out := by
  intro fuel
  induction fuel with
  | zero =>
    intro ls out hb hsd
    rw [buildLoop] at hb
    by_cases hr : 100 < (lastLevel ls).A_.rows
    · rw [if_pos hr] at hb; cases hb
    · rw [if_neg hr] at hb; cases hb; exact hsd
  | succ f ih =>
    intro ls out hb hsd
    rw [buildLoop] at hb
    by_cases hr : 100 < (lastLevel ls).A_.rows
    · rw [if_pos hr] at hb
      exact ih _ _ hb (strictDec_extendL col θ hprog _ hr hsd)
    · rw [if_neg hr] at hb; cases hb; exact hsd

theorem strictDec_getD :
    ∀ ls : List Level, StrictDec ls → ∀ i, i + 1 < ls.length →
    (ls.getD (i + 1) dLevel).A_.rows < (ls.getD i dLevel).A_.rows := by
  intro ls
  induction ls with
  | nil => intro _ i hi; simp at hi
  | cons a t ih =>
    intro hsd i hi
    cases t with
    | nil => simp at hi
    | cons b r =>
      cases i with
      | zero => simpa using hsd.1
      | succ n => simpa using ih hsd.2 n (by simp at hi ⊢; omega)

/- Lemmas about the post-loop fixup and the full constructor. -/

theorem list_getD_map_level (f : Level → Level) (hd : f dLevel = dLevel) :
    ∀ (l : List Level) (i : Nat), (l.map f).getD i dLevel = f (l.getD i dLevel) := by
  intro l
  induction l with
  | nil => intro i; cases i <;> simp [hd]
  | cons a t ih =>
    intro i
    cases i with
    | zero => rfl
    | succ n => simpa using ih n

theorem length_finalizeL (A : Mat) (ls : List Level) :
    (finalizeL A ls).length = ls.length := by
  cases ls <;> simp [finalizeL]

theorem getD_finalizeL (A : Mat) (ls : List Level)
    (hhead : (ls.headD dLevel).A_ = A) (i : Nat) :
    (finalizeL A ls).getD i dLevel
      = { ls.getD i dLevel with A := (ls.getD i dLevel).A_ } := by
  cases ls with
  | nil => cases i <;> rfl
  | cons l0 rest =>
    cases i with
    | zero =>
      have h0 : (l0 :: rest).headD dLevel = l0 := rfl
      rw [h0] at hhead
      rw [← hhead]
      rfl
    | succ n =>
      simpa [finalizeL] using
        list_getD_map_level (fun lv => { lv with A := lv.A_ }) rfl rest n

theorem initAMG_props (col : Collab) (θ : ℚ) (A : Mat) (B : Vec) (fuel : Nat)
    (h : Hierarchy) (hb : initAMG col θ A B fuel = some h) :
    ∃ out : List Level, buildLoop col θ fuel [{ A_ := A, B := B }] = some out ∧
      h.levels = finalizeL A out ∧ h.lu = col.lu (lastLevel out).A_ ∧
      ChainInv out ∧ out ≠ [] ∧ (out.headD dLevel).A_ = A ∧
      ¬(100 < (lastLevel out).A_.rows) := by
  rw [initAMG] at hb
  cases hbl : buildLoop col θ fuel [{ A_ := A, B := B }] with
  | none => rw [hbl] at hb; cases hb
  | some out =>
    rw [hbl] at hb
    have hinv0 : ChainInv [{ A_ := A, B := B }] := ⟨rfl, rfl, rfl, rfl⟩
    have hp := buildLoop_props col θ fuel _ out hbl (by simp) hinv0
    refine ⟨out, rfl, ?_, ?_, hp.1, hp.2.1, ?_, hp.2.2.1⟩
    · cases hb; rfl
    · cases hb; rfl
    · exact hp.2.2.2

/- Where pre-smoothing starts: the x passed to the first pre-smooth at a
coarse level j is exactly the x stored for level j when the cycle began. -/

theorem firstPreX_solveRec (H : Hierarchy) :
    ∀ (gas : Nat) (st : List Work) (b x : Vec) (i j : Nat), i ≤ j →
    j + 1 < H.levels.length → H.levels.length - i ≤ gas →
    firstPreX ((solveRec H gas st b x i).2.2) j
      = some (if j = i then x else getX st j) := by
  intro gas
  induction gas with
  | zero =>
    intro st b x i j hij hj hg
    omega
  | succ g ih =>
    intro st b x i j hij hj hg
    by_cases hterm : i + 1 = H.levels.length
    · omega
    · simp only [solveRec, if_neg hterm]
      rcases eq_or_ne j i with hji | hji
      · subst hji
        simp [firstPreX, List.findSome?_cons]
      · have hij' : i + 1 ≤ j := by omega
        have hg' : H.levels.length - (i + 1) ≤ g := by omega
        have hIH := ih
          (putB (putResidual st i
            (axpby 1 b (-1) (matVec (H.levels.getD i dLevel).A
              (((H.levels.getD i dLevel).smoother.getD dSmoother).pre
                (H.levels.getD i dLevel).A b x)))) (i + 1)
            (matVec ((H.levels.getD i dLevel).R.getD dMat)
              (axpby 1 b (-1) (matVec (H.levels.getD i dLevel).A
                (((H.levels.getD i dLevel).smoother.getD dSmoother).pre
                  (H.levels.getD i dLevel).A b x)))))
          (matVec ((H.levels.getD i dLevel).R.getD dMat)
            (axpby 1 b (-1) (matVec (H.levels.getD i dLevel).A
              (((H.levels.getD i dLevel).smoother.getD dSmoother).pre
                (H.levels.getD i dLevel).A b x))))
          (getX (putResidual st i
            (axpby 1 b (-1) (matVec (H.levels.getD i dLevel).A
              (((H.levels.getD i dLevel).smoother.getD dSmoother).pre
                (H.levels.getD i dLevel).A b x)))) (i + 1))
          (i + 1) j hij' hj hg'
        have htr : (if j = i + 1
            then getX (putResidual st i
              (axpby 1 b (-1) (matVec (H.levels.getD i dLevel).A
                (((H.levels.getD i dLevel).smoother.getD dSmoother).pre
                  (H.levels.getD i dLevel).A b x)))) (i + 1)
            else getX (putB (putResidual st i
              (axpby 1 b (-1) (matVec (H.levels.getD i dLevel).A
                (((H.levels.getD i dLevel).smoother.getD dSmoother).pre
                  (H.levels.getD i dLevel).A b x)))) (i + 1)
              (matVec ((H.levels.getD i dLevel).R.getD dMat)
                (axpby 1 b (-1) (matVec (H.levels.getD i dLevel).A
                  (((H.levels.getD i dLevel).smoother.getD dSmoother).pre
                    (H.levels.getD i dLevel).A b x))))) j)
            = getX st j := by
          split
          · next hj1 => rw [getX_putResidual, ← hj1]
          · rw [getX_putB, getX_putResidual]
        rw [htr] at hIH
        simp only [firstPreX] at hIH ⊢
        rw [List.findSome?_cons, List.findSome?_cons, List.findSome?_cons]
        have hne : ¬ i = j := fun hh => hji hh.symm
        simp only [if_neg hne, if_neg hji]
        exact findSome?_append_some _ _ _ _ hIH

/- Further support lemmas. -/

theorem list_getD_map_gen {α β : Type} (f : α → β) (d : α) (d' : β)
    (hd : f d = d') :
    ∀ (l : List α) (i : Nat), (l.map f).getD i d' = f (l.getD i d) := by
  intro l
  induction l with
  | nil => intro i; cases i <;> simp [hd]
  | cons a t ih =>
    intro i
    cases i with
    | zero => rfl
    | succ n => simpa using ih n

theorem lastLevel_eq_getD :
    ∀ ls : List Level, lastLevel ls = ls.getD (ls.length - 1) dLevel := by
  intro ls
  induction ls with
  | nil => rfl
  | cons a t ih =>
    cases t with
    | nil => rfl
    | cons b r =>
      rw [lastLevel_cons_cons, ih]
      simp [List.getD]

theorem buildLoop_small (col : Collab) (θ : ℚ) (fuel : Nat) (ls : List Level)
    (h : ¬(100 < (lastLevel ls).A_.rows)) :
    buildLoop col θ fuel ls = some ls := by
  cases fuel <;> simp [buildLoop, h]

theorem buildLoop_stall_none (col : Collab) (θ : ℚ)
    (hstall : ∀ t : List Level,
      (lastLevel (extendL col θ t)).A_.rows = (lastLevel t).A_.rows) :
    ∀ (fuel : Nat) (ls : List Level), 100 < (lastLevel ls).A_.rows →
    buildLoop col θ fuel ls = none := by
  intro fuel
  induction fuel with
  | zero => intro ls h; simp [buildLoop, h]
  | succ f ih =>
    intro ls h
    rw [buildLoop, if_pos h]
    exact ih _ (by rw [hstall]; exact h)

theorem colStall_stall :
    ∀ t : List Level,
    (lastLevel (extendL colStall 0 t)).A_.rows = (lastLevel t).A_.rows := by
  intro t
  cases t with
  | nil => rfl
  | cons a r =>
    rw [lastLevel_extendL colStall 0 _ (by simp)]
    simp [extendStep, colStall, mulM, transposeM]

theorem applyOp_single (H : Hierarchy) (hlen : H.levels.length = 1)
    (st : List Work) (b x : Vec) :
    applyOp H st b x = (H.lu b, st, [Ev.coarse 0 b (H.lu b)]) := by
  rw [applyOp, hlen]
  simp [solveRec, hlen]

theorem solveLoop_single_events (H : Hierarchy) (hlen : H.levels.length = 1)
    (b : Vec) :
    ∀ (k : Nat) (m : Monitor), m.limit - m.iter ≤ k →
    ∀ (st : List Work) (x u r : Vec),
    ∀ e ∈ (solveLoop H b st x u r m).2.2.2,
      (∃ bb xx, e = Ev.coarse 0 bb xx) ∨ e = Ev.advance := by
  intro k
  induction k with
  | zero =>
    intro m hm st x u r e he
    have hfin : m.finished r = true := by
      rw [Monitor.finished]
      have hle : m.limit ≤ m.iter := by omega
      simp [hle]
    rw [solveLoop.eq_def] at he
    simp [if_pos hfin] at he
  | succ k ih =>
    intro m hm st x u r e he
    by_cases hfin : m.finished r = true
    · rw [solveLoop.eq_def] at he
      simp [if_pos hfin] at he
    · have hit : m.iter < m.limit := by
        by_contra hc
        apply hfin
        rw [Monitor.finished]
        have hle : m.limit ≤ m.iter := by omega
        simp [hle]
      rw [solveLoop.eq_def] at he
      simp only [if_neg hfin] at he
      have hs : solveRec H H.levels.length st r u 0
          = (H.lu r, st, [Ev.coarse 0 r (H.lu r)]) := by
        rw [hlen]
        simp [solveRec, hlen]
      rw [hs] at he
      rw [List.mem_append] at he
      rcases he with h1 | h2
      · left
        simp at h1
        exact ⟨r, H.lu r, h1⟩
      · rcases List.mem_cons.mp h2 with h3 | h4
        · right; exact h3
        · have hm' : m.inc.limit - m.inc.iter ≤ k := by
            simp [Monitor.inc]; omega
          exact ih m.inc hm' _ _ _ _ e h4

theorem one_le_natRatio (a s : Nat) (ha : 0 < a) :
    1 ≤ ((a + s : Nat) : ℚ) / (a : ℚ) := by
  rw [one_le_div (by exact_mod_cast ha)]
  exact_mod_cast Nat.le_add_right a s

theorem natRatio_self (a : Nat) (ha : 0 < a) : ((a : Nat) : ℚ) / (a : ℚ) = 1 :=
  div_self (by exact_mod_cast Nat.pos_iff_ne_zero.mp ha)

theorem initAMG_getD (col : Collab) (θ : ℚ) (A : Mat) (B : Vec) (fuel : Nat)
    (h : Hierarchy) (hb : initAMG col θ A B fuel = some h) :
    ∃ out : List Level,
      buildLoop col θ fuel [{ A_ := A, B := B }] = some out ∧
      out ≠ [] ∧ ChainInv out ∧
      (out.headD dLevel).A_ = A ∧ ¬(100 < (lastLevel out).A_.rows) ∧
      h.levels.length = out.length ∧
      ∀ i, h.levels.getD i dLevel
        = { out.getD i dLevel with A := (out.getD i dLevel).A_ } := by
  obtain ⟨out, hbl, hlev, _, hinv, hne, hhead, hstop⟩ :=
    initAMG_props col θ A B fuel h hb
  refine ⟨out, hbl, hne, hinv, hhead, hstop, ?_, ?_⟩
  · rw [hlev, length_finalizeL]
  · intro i
    rw [hlev]
    exact getD_finalizeL A out hhead i

/-- C1: for every built hierarchy and every level index i, a V-cycle call at
level i performs, in this strict order and nothing else: if i is the last
level index, the coarsest-level direct solve of A_i·x_i = b_i; otherwise
pre-smoothing of x_i, the residual computation r = b_i − A_i·x_i, the
restriction b_{i+1} = R_i·r, the recursion at level i+1, the correction
x_i += P_i·x_{i+1}, and post-smoothing — formalised as: `solveRec` (the
code's `_solve`) agrees in result, per-level state and step trace with
`vcycleSpec`, the spec's six-step recursion. -/
theorem claim_C1 (col : Collab) (θ : ℚ) (A : Mat) (B : Vec) (fuel : Nat)
    (h : Hierarchy) (hb : initAMG col θ A B fuel = some h) (gas : Nat)
    (st : List Work) (b x : Vec) (i : Nat) (hi : i < h.levels.length)
    (hg : h.levels.length - i ≤ gas) :
    (solveRec h gas st b x i).1 = (vcycleSpec h gas (st.map projW) b x i).1 ∧
    (solveRec h gas st b x i).2.1.map projW
      = (vcycleSpec h gas (st.map projW) b x i).2.1 ∧
    (solveRec h gas st b x i).2.2 = (vcycleSpec h gas (st.map projW) b x i).2.2 :=
  solveRec_toSpec h gas st b x i

/-- C2: for every built hierarchy, right-hand side b, initial guess x and
monitor, solve(b, x, monitor) computes the initial residual r = b − A₀·x and
then, while the monitor is not finished on the current residual, runs exactly
one V-cycle on r to obtain an update, applies x += update, recomputes
r = b − A₀·x, and advances the monitor's iteration counter once per loop
pass — formalised as: `solveMG` (the code's `solve`) agrees in result, state,
final monitor and trace with `solveMGSpec`, the spec's loop, and the final
iteration count exceeds the initial one by exactly the number of passes. -/
theorem claim_C2 (col : Collab) (θ : ℚ) (A : Mat) (B : Vec) (fuel : Nat)
    (h : Hierarchy) (hb : initAMG col θ A B fuel = some h) (st : List Work)
    (b x : Vec) (m : Monitor) :
    (solveMG h st b x m).1 = (solveMGSpec h (st.map projW) b x m).1 ∧
    (solveMG h st b x m).2.1.map projW = (solveMGSpec h (st.map projW) b x m).2.1 ∧
    (solveMG h st b x m).2.2.1 = (solveMGSpec h (st.map projW) b x m).2.2.1 ∧
    (solveMG h st b x m).2.2.2 = (solveMGSpec h (st.map projW) b x m).2.2.2 ∧
    (solveMG h st b x m).2.2.1.iter
      = m.iter + advCount ((solveMG h st b x m).2.2.2) := by
  rw [solveMG, solveMGSpec]
  exact solveLoop_toSpec h b (m.limit - m.iter) m le_rfl st x _ _

/-- C4: for every level i > 0 of a built hierarchy, the solve-time operator A
at level i equals the Galerkin product R·A_{i-1}·P formed from the previous
level's operator and the transfer operators stored on level i-1, computed as
the two multiplications AP = A_{i-1}·P and RAP = R·AP (and, by associativity,
equal to (R·A_{i-1})·P as well). -/
theorem claim_C4 (col : Collab) (θ : ℚ) (A : Mat) (B : Vec) (fuel : Nat)
    (h : Hierarchy) (hb : initAMG col θ A B fuel = some h) (i : Nat)
    (h1 : 1 ≤ i) (hi : i < h.levels.length) :
    ∃ R P, (h.levels.getD (i - 1) dLevel).R = some R ∧
      (h.levels.getD (i - 1) dLevel).P = some P ∧
      (h.levels.getD i dLevel).A
        = mulM R (mulM ((h.levels.getD (i - 1) dLevel).A) P) ∧
      (h.levels.getD i dLevel).A
        = mulM (mulM R ((h.levels.getD (i - 1) dLevel).A)) P := by
  obtain ⟨out, hbl, hne, hinv, hhead, hstop, hlen, hgd⟩ :=
    initAMG_getD col θ A B fuel h hb
  obtain ⟨j, rfl⟩ : ∃ j, i = j + 1 := ⟨i - 1, by omega⟩
  have hj : j + 1 < out.length := by omega
  obtain ⟨P, hP, hR, hA, _, _, _, _, _⟩ := chainInv_getD out hinv j hj
  refine ⟨transposeM P, P, ?_, ?_, ?_, ?_⟩
  · simp only [Nat.add_sub_cancel]
    rw [hgd j]
    exact hR
  · simp only [Nat.add_sub_cancel]
    rw [hgd j]
    exact hP
  · simp only [Nat.add_sub_cancel]
    rw [hgd (j + 1), hgd j]
    exact hA
  · simp only [Nat.add_sub_cancel]
    rw [hgd (j + 1), hgd j, mulM_assoc]
    exact hA

/-- C5: for every non-terminal level of a built hierarchy, the stored
restriction operator R_i is exactly the transpose of the stored prolongation
operator P_i, by construction. -/
theorem claim_C5 (col : Collab) (θ : ℚ) (A : Mat) (B : Vec) (fuel : Nat)
    (h : Hierarchy) (hb : initAMG col θ A B fuel = some h) (i : Nat)
    (hi : i + 1 < h.levels.length) :
    ∃ P, (h.levels.getD i dLevel).P = some P ∧
      (h.levels.getD i dLevel).R = some (transposeM P) := by
  obtain ⟨out, hbl, hne, hinv, hhead, hstop, hlen, hgd⟩ :=
    initAMG_getD col θ A B fuel h hb
  obtain ⟨P, hP, hR, _, _, _, _, _, _⟩ :=
    chainInv_getD out hinv i (by omega)
  exact ⟨P, by rw [hgd i]; exact hP, by rw [hgd i]; exact hR⟩


/-- C3 (amended): for every completed build, the loop stops exactly when the
newest level's row count is ≤ 100 — every non-terminal level has more than
100 rows and the coarsest at most 100 — and the coarsest level receives no R,
P, aggregates or smoother.  Row counts strictly decrease whenever every
coarsening pass strictly reduces the last level's row count (hypothesis
`hprog`); the engine itself enforces no strict decrease, so the original
claim's unconditional strict-decrease part fails (see the counterexample). -/
theorem claim_C3 (col : Collab) (θ : ℚ) (A : Mat) (B : Vec) (fuel : Nat)
    (h : Hierarchy) (hb : initAMG col θ A B fuel = some h)
    (hprog : ∀ t : List Level, 100 < (lastLevel t).A_.rows →
      (lastLevel (extendL col θ t)).A_.rows < (lastLevel t).A_.rows) :
    h.levels ≠ [] ∧
    (h.levels.getD (h.levels.length - 1) dLevel).A.rows ≤ 100 ∧
    (∀ i, i + 1 < h.levels.length → 100 < (h.levels.getD i dLevel).A.rows) ∧
    (∀ i, i + 1 < h.levels.length →
      (h.levels.getD (i + 1) dLevel).A.rows < (h.levels.getD i dLevel).A.rows) ∧
    (h.levels.getD (h.levels.length - 1) dLevel).R = none ∧
    (h.levels.getD (h.levels.length - 1) dLevel).P = none ∧
    (h.levels.getD (h.levels.length - 1) dLevel).aggregates = none ∧
    (h.levels.getD (h.levels.length - 1) dLevel).smoother = none := by
  obtain ⟨out, hbl, hne, hinv, hhead, hstop, hlen, hgd⟩ :=
    initAMG_getD col θ A B fuel h hb
  have hnl : h.levels ≠ [] := by
    intro hcontra
    rw [hcontra] at hlen
    exact hne (List.length_eq_zero.mp hlen.symm)
  have hsd : StrictDec out :=
    buildLoop_strictDec col θ hprog fuel _ out hbl trivial
  have hlast := chainInv_last out hinv hne
  rw [lastLevel_eq_getD] at hlast hstop
  refine ⟨hnl, ?_, ?_, ?_, ?_, ?_, ?_, ?_⟩
  · rw [hlen, hgd (out.length - 1)]
    exact Nat.le_of_not_lt hstop
  · intro i hi
    rw [hgd i]
    obtain ⟨P, _, _, _, _, _, hrw, _, _⟩ :=
      chainInv_getD out hinv i (by omega)
    exact hrw
  · intro i hi
    rw [hgd i, hgd (i + 1)]
    exact strictDec_getD out hsd i (by omega)
  · rw [hlen, hgd (out.length - 1)]; exact hlast.1
  · rw [hlen, hgd (out.length - 1)]; exact hlast.2.1
  · rw [hlen, hgd (out.length - 1)]; exact hlast.2.2.1
  · rw [hlen, hgd (out.length - 1)]; exact hlast.2.2.2

/-- C6 (amended): hierarchy construction does NOT detect stalled coarsening;
when every pass leaves the last level's row count unchanged and the input has
more than 100 rows, the build loop never completes, for any number of passes
(the source contains no abort path).  The original claim's required
detection/abort does not exist (see the counterexample). -/
theorem claim_C6 (col : Collab) (θ : ℚ) (A : Mat) (B : Vec) (fuel : Nat)
    (hstall : ∀ t : List Level,
      (lastLevel (extendL col θ t)).A_.rows = (lastLevel t).A_.rows)
    (hbig : 100 < A.rows) :
    initAMG col θ A B fuel = none := by
  rw [initAMG]
  have hb0 : buildLoop col θ fuel [{ A_ := A, B := B }] = none :=
    buildLoop_stall_none col θ hstall fuel _ hbig
  rw [hb0]

/-- C7 (amended): within any single V-cycle on a built hierarchy, the
pre-smoothing at a coarse level j starts from exactly the x vector stored
for level j when the cycle began; that stored vector is zero right after
construction (so the first cycle's coarse pre-smoothing starts from zero),
but it is never reset between cycles, so later fresh cycles start from the
value the previous cycle left behind (see the counterexample refuting the
original always-zero claim). -/
theorem claim_C7 (col : Collab) (θ : ℚ) (A : Mat) (B : Vec) (fuel : Nat)
    (h : Hierarchy) (hb : initAMG col θ A B fuel = some h) :
    (∀ (st : List Work) (b x : Vec) (j : Nat), 1 ≤ j → j + 1 < h.levels.length →
      firstPreX ((applyOp h st b x).2.2) j = some (getX st j)) ∧
    (∀ (b x : Vec) (j : Nat), 1 ≤ j → j + 1 < h.levels.length →
      firstPreX ((applyOp h (initWork h) b x).2.2) j
        = some (zeroVec ((h.levels.getD j dLevel).A.rows))) := by
  obtain ⟨out, hbl, hne, hinv, hhead, hstop, hlen, hgd⟩ :=
    initAMG_getD col θ A B fuel h hb
  constructor
  · intro st b x j hj hjl
    have hfp := firstPreX_solveRec h h.levels.length st b x 0 j (by omega) hjl
      (by omega)
    rw [applyOp, hfp, if_neg (by omega : ¬ j = 0)]
  · intro b x j hj hjl
    have hfp := firstPreX_solveRec h h.levels.length (initWork h) b x 0 j
      (by omega) hjl (by omega)
    rw [applyOp, hfp, if_neg (by omega : ¬ j = 0)]
    congr 1
    rw [getX, initWork, list_getD_map_gen _ dLevel dWork rfl]
    show (h.levels.getD j dLevel).x = zeroVec ((h.levels.getD j dLevel).A.rows)
    obtain ⟨jj, rfl⟩ : ∃ jj, j = jj + 1 := ⟨j - 1, by omega⟩
    obtain ⟨P, _, _, _, _, _, _, hx, _⟩ := chainInv_getD out hinv jj (by omega)
    rw [hgd (jj + 1)]
    exact hx

/-- C8 (amended): for every built hierarchy whose finest operator has at
least one stored entry and at least one row, operator_complexity() ≥ 1 and
grid_complexity() ≥ 1, and both equal exactly 1 when the hierarchy has a
single level.  (Without stored entries the operator-complexity ratio is the
indeterminate 0/0 — NaN in floating point, 0 in this rational model — and
the bound fails; see the counterexample.) -/
theorem claim_C8 (col : Collab) (θ : ℚ) (A : Mat) (B : Vec) (fuel : Nat)
    (h : Hierarchy) (hb : initAMG col θ A B fuel = some h)
    (hnz : 0 < ((h.levels.getD 0 dLevel).A).nnz)
    (hr0 : 0 < ((h.levels.getD 0 dLevel).A).rows) :
    1 ≤ operatorComplexity h ∧ 1 ≤ gridComplexity h ∧
    (h.levels.length = 1 → operatorComplexity h = 1 ∧ gridComplexity h = 1) := by
  obtain ⟨out, hbl, hne, hinv, hhead, hstop, hlen, hgd⟩ :=
    initAMG_getD col θ A B fuel h hb
  have hnl : h.levels ≠ [] := by
    intro hcontra
    rw [hcontra] at hlen
    exact hne (List.length_eq_zero.mp hlen.symm)
  obtain ⟨l0, rest, hcons⟩ : ∃ l0 rest, h.levels = l0 :: rest := by
    cases hlv : h.levels with
    | nil => exact absurd hlv hnl
    | cons a t => exact ⟨a, t, rfl⟩
  have hd0 : h.levels.getD 0 dLevel = l0 := by rw [hcons]; rfl
  rw [hd0] at hnz hr0
  have hopc : operatorComplexity h
      = ((l0.A.nnz + (rest.map (fun lv => lv.A.nnz)).sum : Nat) : ℚ)
        / ((l0.A.nnz : Nat) : ℚ) := by
    rw [operatorComplexity, hcons]
    simp [List.getD_cons_zero, Nat.cast_add]
  have hgrc : gridComplexity h
      = ((l0.A.rows + (rest.map (fun lv => lv.A.rows)).sum : Nat) : ℚ)
        / ((l0.A.rows : Nat) : ℚ) := by
    rw [gridComplexity, hcons]
    simp [List.getD_cons_zero, Nat.cast_add]
  refine ⟨?_, ?_, ?_⟩
  · rw [hopc]; exact one_le_natRatio _ _ hnz
  · rw [hgrc]; exact one_le_natRatio _ _ hr0
  · intro hone
    have hrest : rest = [] := by
      rw [hcons] at hone
      simpa using hone
    subst hrest
    constructor
    · rw [hopc]
      simp only [List.map_nil, List.sum_nil, Nat.add_zero]
      exact natRatio_self _ hnz
    · rw [hgrc]
      simp only [List.map_nil, List.sum_nil, Nat.add_zero]
      exact natRatio_self _ hr0

/-- C9 (amended): solve performs no dimension validation: a call whose b or x
length disagrees with the finest operator's row count is not rejected — it
runs exactly the standard iteration (state, result, monitor and trace all
agree with the spec loop), and when the monitor is not initially finished the
call performs at least one full pass (nonempty trace) instead of failing. -/
theorem claim_C9 (col : Collab) (θ : ℚ) (A : Mat) (B : Vec) (fuel : Nat)
    (h : Hierarchy) (hb : initAMG col θ A B fuel = some h) (st : List Work)
    (b x : Vec) (m : Monitor)
    (hmis : b.length ≠ ((h.levels.getD 0 dLevel).A).rows
      ∨ x.length ≠ ((h.levels.getD 0 dLevel).A).rows) :
    (solveMG h st b x m).1 = (solveMGSpec h (st.map projW) b x m).1 ∧
    (solveMG h st b x m).2.1.map projW = (solveMGSpec h (st.map projW) b x m).2.1 ∧
    (solveMG h st b x m).2.2.1 = (solveMGSpec h (st.map projW) b x m).2.2.1 ∧
    (solveMG h st b x m).2.2.2 = (solveMGSpec h (st.map projW) b x m).2.2.2 ∧
    (m.finished (axpby 1 b (-1) (matVec ((h.levels.getD 0 dLevel).A) x)) = false →
      (solveMG h st b x m).2.2.2 ≠ []) := by
  have key := solveLoop_toSpec h b (m.limit - m.iter) m le_rfl st x
    (zeroVec ((h.levels.getD 0 dLevel).A).rows)
    (axpby 1 b (-1) (matVec ((h.levels.getD 0 dLevel).A) x))
  refine ⟨key.1, key.2.1, key.2.2.1, key.2.2.2.1, ?_⟩
  intro hnf
  show (solveLoop h b st x (zeroVec ((h.levels.getD 0 dLevel).A).rows)
    (axpby 1 b (-1) (matVec ((h.levels.getD 0 dLevel).A) x)) m).2.2.2 ≠ []
  rw [solveLoop.eq_def]
  simp only [hnf, Bool.false_eq_true, if_false]
  simp

/-- C10: for every input operator with at most 100 rows, construction builds
a hierarchy with exactly one level carrying no aggregates, R, P or smoother,
every apply/operator() call is exactly one coarse direct solve (trace
[coarse], result LU(b), state untouched), and every event inside solve's
trace is a coarse solve or a monitor advance — no smoothing, restriction or
prolongation ever occurs. -/
theorem claim_C10 (col : Collab) (θ : ℚ) (A : Mat) (B : Vec) (fuel : Nat)
    (h : Hierarchy) (hb : initAMG col θ A B fuel = some h)
    (hsmall : A.rows ≤ 100) :
    h.levels.length = 1 ∧
    (h.levels.getD 0 dLevel).R = none ∧ (h.levels.getD 0 dLevel).P = none ∧
    (h.levels.getD 0 dLevel).aggregates = none ∧
    (h.levels.getD 0 dLevel).smoother = none ∧
    (∀ (st : List Work) (b x : Vec),
      applyOp h st b x = (h.lu b, st, [Ev.coarse 0 b (h.lu b)])) ∧
    (∀ (st : List Work) (b x : Vec) (m : Monitor),
      ∀ e ∈ (solveMG h st b x m).2.2.2,
        (∃ bb xx, e = Ev.coarse 0 bb xx) ∨ e = Ev.advance) := by
  obtain ⟨out, hbl, hne, hinv, hhead, hstop, hlen, hgd⟩ :=
    initAMG_getD col θ A B fuel h hb
  have hsm2 : ¬(100 < (lastLevel [({ A_ := A, B := B } : Level)]).A_.rows) := by
    show ¬(100 < A.rows)
    omega
  have hout : out = [{ A_ := A, B := B }] := by
    rw [buildLoop_small col θ fuel _ hsm2] at hbl
    exact (Option.some.inj hbl).symm
  rw [hout] at hlen hgd
  have hlen1 : h.levels.length = 1 := by simpa using hlen
  refine ⟨hlen1, ?_, ?_, ?_, ?_, ?_, ?_⟩
  · rw [hgd 0]; rfl
  · rw [hgd 0]; rfl
  · rw [hgd 0]; rfl
  · rw [hgd 0]; rfl
  · intro st b x
    exact applyOp_single h hlen1 st b x
  · intro st b x m e he
    exact solveLoop_single_events h hlen1 b (m.limit - m.iter) m le_rfl
      st x _ _ e he

theorem colW_prog :
    ∀ t : List Level, 100 < (lastLevel t).A_.rows →
    (lastLevel (extendL colW 0 t)).A_.rows < (lastLevel t).A_.rows := by
  intro t ht
  cases t with
  | nil => exact absurd ht (by decide)
  | cons a r =>
    rw [lastLevel_extendL colW 0 _ (by simp)]
    have h2 : (extendStep colW 0 (lastLevel (a :: r))).2.A_.rows = 2 := by
      simp [extendStep, colW, mulM, transposeM]
    omega

theorem claim_C1_witness :
    initAMG colW 0 AW B101 5 = some hW ∧ 0 < hW.levels.length ∧
    hW.levels.length - 0 ≤ 2 ∧
    ((solveRec hW 2 (initWork hW) B101 (zeroVec 101) 0).1
        = (vcycleSpec hW 2 ((initWork hW).map projW) B101 (zeroVec 101) 0).1 ∧
      (solveRec hW 2 (initWork hW) B101 (zeroVec 101) 0).2.1.map projW
        = (vcycleSpec hW 2 ((initWork hW).map projW) B101 (zeroVec 101) 0).2.1 ∧
      (solveRec hW 2 (initWork hW) B101 (zeroVec 101) 0).2.2
        = (vcycleSpec hW 2 ((initWork hW).map projW) B101 (zeroVec 101) 0).2.2) :=
  ⟨rfl, by with_unfolding_all decide, by with_unfolding_all decide,
    claim_C1 colW 0 AW B101 5 hW rfl 2 (initWork hW) B101 (zeroVec 101) 0
      (by with_unfolding_all decide) (by with_unfolding_all decide)⟩

theorem claim_C2_witness :
    initAMG colW 0 A1pos [1] 1 = some h1 ∧
    ((solveMG h1 (initWork h1) [1] [0] m1).1
        = (solveMGSpec h1 ((initWork h1).map projW) [1] [0] m1).1 ∧
      (solveMG h1 (initWork h1) [1] [0] m1).2.1.map projW
        = (solveMGSpec h1 ((initWork h1).map projW) [1] [0] m1).2.1 ∧
      (solveMG h1 (initWork h1) [1] [0] m1).2.2.1
        = (solveMGSpec h1 ((initWork h1).map projW) [1] [0] m1).2.2.1 ∧
      (solveMG h1 (initWork h1) [1] [0] m1).2.2.2
        = (solveMGSpec h1 ((initWork h1).map projW) [1] [0] m1).2.2.2 ∧
      (solveMG h1 (initWork h1) [1] [0] m1).2.2.1.iter
        = m1.iter + advCount ((solveMG h1 (initWork h1) [1] [0] m1).2.2.2)) :=
  ⟨rfl, claim_C2 colW 0 A1pos [1] 1 h1 rfl (initWork h1) [1] [0] m1⟩

theorem claim_C3_witness :
    initAMG colW 0 AW B101 5 = some hW ∧
    (∀ t : List Level, 100 < (lastLevel t).A_.rows →
      (lastLevel (extendL colW 0 t)).A_.rows < (lastLevel t).A_.rows) ∧
    (hW.levels ≠ [] ∧
      (hW.levels.getD (hW.levels.length - 1) dLevel).A.rows ≤ 100 ∧
      (∀ i, i + 1 < hW.levels.length →
        100 < (hW.levels.getD i dLevel).A.rows) ∧
      (∀ i, i + 1 < hW.levels.length →
        (hW.levels.getD (i + 1) dLevel).A.rows
          < (hW.levels.getD i dLevel).A.rows) ∧
      (hW.levels.getD (hW.levels.length - 1) dLevel).R = none ∧
      (hW.levels.getD (hW.levels.length - 1) dLevel).P = none ∧
      (hW.levels.getD (hW.levels.length - 1) dLevel).aggregates = none ∧
      (hW.levels.getD (hW.levels.length - 1) dLevel).smoother = none) :=
  ⟨rfl, colW_prog, claim_C3 colW 0 AW B101 5 hW rfl colW_prog⟩

theorem claim_C3_cx :
    initAMG colC3 0 AW B101 5 = some hC3 ∧ hC3.levels.length = 3 ∧
    (hC3.levels.getD 0 dLevel).A.rows = 101 ∧
    (hC3.levels.getD 1 dLevel).A.rows = 101 ∧
    (hC3.levels.getD 2 dLevel).A.rows = 2 ∧
    ¬((hC3.levels.getD 1 dLevel).A.rows
        < (hC3.levels.getD 0 dLevel).A.rows) := by
  refine ⟨by with_unfolding_all rfl, ?_, ?_, ?_, ?_, ?_⟩ <;> with_unfolding_all decide

theorem claim_C4_witness :
    initAMG colW 0 AW B101 5 = some hW ∧ 1 ≤ 1 ∧ 1 < hW.levels.length ∧
    (∃ R P, (hW.levels.getD 0 dLevel).R = some R ∧
      (hW.levels.getD 0 dLevel).P = some P ∧
      (hW.levels.getD 1 dLevel).A
        = mulM R (mulM ((hW.levels.getD 0 dLevel).A) P) ∧
      (hW.levels.getD 1 dLevel).A
        = mulM (mulM R ((hW.levels.getD 0 dLevel).A)) P) := by
  refine ⟨rfl, le_rfl, by with_unfolding_all decide, ?_⟩
  have := claim_C4 colW 0 AW B101 5 hW rfl 1 le_rfl (by with_unfolding_all decide)
  simpa using this

theorem claim_C5_witness :
    initAMG colW 0 AW B101 5 = some hW ∧ 0 + 1 < hW.levels.length ∧
    (∃ P, (hW.levels.getD 0 dLevel).P = some P ∧
      (hW.levels.getD 0 dLevel).R = some (transposeM P)) :=
  ⟨rfl, by with_unfolding_all decide,
    claim_C5 colW 0 AW B101 5 hW rfl 0 (by with_unfolding_all decide)⟩

theorem claim_C6_witness :
    (∀ t : List Level,
      (lastLevel (extendL colStall 0 t)).A_.rows = (lastLevel t).A_.rows) ∧
    100 < AW.rows ∧ initAMG colStall 0 AW B101 1000 = none :=
  ⟨colStall_stall, by decide,
    claim_C6 colStall 0 AW B101 1000 colStall_stall (by decide)⟩

theorem claim_C6_cx :
    initAMG colStall 0 AW B101 300 = none ∧
    (lastLevel (extendL colStall 0 [{ A_ := AW, B := B101 }])).A_.rows
      = (lastLevel [{ A_ := AW, B := B101 }]).A_.rows := by
  constructor
  · rw [initAMG, buildLoop_stall_none colStall 0 colStall_stall 300 _ (by decide)]
  · exact colStall_stall _

theorem claim_C7_witness :
    initAMG colC7 0 A0C7 B101 9 = some hC7 ∧
    ((∀ (st : List Work) (b x : Vec) (j : Nat), 1 ≤ j →
        j + 1 < hC7.levels.length →
        firstPreX ((applyOp hC7 st b x).2.2) j = some (getX st j)) ∧
      (∀ (b x : Vec) (j : Nat), 1 ≤ j → j + 1 < hC7.levels.length →
        firstPreX ((applyOp hC7 (initWork hC7) b x).2.2) j
          = some (zeroVec ((hC7.levels.getD j dLevel).A.rows)))) :=
  ⟨by with_unfolding_all rfl,
    claim_C7 colC7 0 A0C7 B101 9 hC7 (by with_unfolding_all rfl)⟩

theorem claim_C7_cx :
    initAMG colC7 0 A0C7 B101 9 = some hC7 ∧
    firstPreX ((applyOp hC7
        ((applyOp hC7 (initWork hC7) B101 (zeroVec 101)).2.1)
        B101 (zeroVec 101)).2.2) 1
      ≠ some (zeroVec ((hC7.levels.getD 1 dLevel).A.rows)) :=
  ⟨by with_unfolding_all rfl, by with_unfolding_all decide⟩

theorem claim_C8_witness :
    initAMG colW 0 A1pos [1] 1 = some h1 ∧
    0 < ((h1.levels.getD 0 dLevel).A).nnz ∧
    0 < ((h1.levels.getD 0 dLevel).A).rows ∧
    (1 ≤ operatorComplexity h1 ∧ 1 ≤ gridComplexity h1 ∧
      (h1.levels.length = 1 →
        operatorComplexity h1 = 1 ∧ gridComplexity h1 = 1)) :=
  ⟨rfl, by with_unfolding_all decide, by with_unfolding_all decide,
    claim_C8 colW 0 A1pos [1] 1 h1 rfl (by with_unfolding_all decide)
      (by with_unfolding_all decide)⟩

theorem claim_C8_cx :
    initAMG colW 0 Az [1] 1 = some hz ∧ 0 < Az.rows ∧
    ((hz.levels.getD 0 dLevel).A).nnz = 0 ∧
    ¬(1 ≤ operatorComplexity hz) :=
  ⟨rfl, by decide, by with_unfolding_all decide, by with_unfolding_all decide⟩

theorem claim_C9_witness :
    initAMG colW 0 A1pos [1] 1 = some h1 ∧
    (([1, 2, 3] : Vec).length ≠ ((h1.levels.getD 0 dLevel).A).rows
      ∨ ([0, 0, 0] : Vec).length ≠ ((h1.levels.getD 0 dLevel).A).rows) ∧
    ((solveMG h1 (initWork h1) [1, 2, 3] [0, 0, 0] m1).1
        = (solveMGSpec h1 ((initWork h1).map projW) [1, 2, 3] [0, 0, 0] m1).1 ∧
      (solveMG h1 (initWork h1) [1, 2, 3] [0, 0, 0] m1).2.1.map projW
        = (solveMGSpec h1 ((initWork h1).map projW) [1, 2, 3] [0, 0, 0] m1).2.1 ∧
      (solveMG h1 (initWork h1) [1, 2, 3] [0, 0, 0] m1).2.2.1
        = (solveMGSpec h1 ((initWork h1).map projW) [1, 2, 3] [0, 0, 0] m1).2.2.1 ∧
      (solveMG h1 (initWork h1) [1, 2, 3] [0, 0, 0] m1).2.2.2
        = (solveMGSpec h1 ((initWork h1).map projW) [1, 2, 3] [0, 0, 0] m1).2.2.2 ∧
      (m1.finished (axpby 1 [1, 2, 3] (-1)
          (matVec ((h1.levels.getD 0 dLevel).A) [0, 0, 0])) = false →
        (solveMG h1 (initWork h1) [1, 2, 3] [0, 0, 0] m1).2.2.2 ≠ [])) :=
  ⟨rfl, by with_unfolding_all decide,
    claim_C9 colW 0 A1pos [1] 1 h1 rfl (initWork h1) [1, 2, 3] [0, 0, 0] m1
      (by with_unfolding_all decide)⟩

theorem claim_C9_cx :
    initAMG colW 0 A1pos [1] 1 = some h1 ∧
    ([1, 2, 3] : Vec).length ≠ ((h1.levels.getD 0 dLevel).A).rows ∧
    (solveMG h1 (initWork h1) [1, 2, 3] [0, 0, 0] m1).2.2.2 ≠ [] ∧
    (solveMG h1 (initWork h1) [1, 2, 3] [0, 0, 0] m1).1 = [1, 0, 0] :=
  ⟨rfl, by with_unfolding_all decide, by with_unfolding_all decide,
    by with_unfolding_all decide⟩

theorem claim_C10_witness :
    initAMG colW 0 A1pos [1] 1 = some h1 ∧ A1pos.rows ≤ 100 ∧
    (h1.levels.length = 1 ∧
      (h1.levels.getD 0 dLevel).R = none ∧
      (h1.levels.getD 0 dLevel).P = none ∧
      (h1.levels.getD 0 dLevel).aggregates = none ∧
      (h1.levels.getD 0 dLevel).smoother = none ∧
      (∀ (st : List Work) (b x : Vec),
        applyOp h1 st b x = (h1.lu b, st, [Ev.coarse 0 b (h1.lu b)])) ∧
      (∀ (st : List Work) (b x : Vec) (m : Monitor),
        ∀ e ∈ (solveMG h1 st b x m).2.2.2,
          (∃ bb xx, e = Ev.coarse 0 bb xx) ∨ e = Ev.advance)) :=
  ⟨rfl, by decide, claim_C10 colW 0 A1pos [1] 1 h1 rfl (by decide)⟩
